import Mathlib

/-!
# Verification of the `simple_wal` write-ahead log

A shallow embedding of `src/lib.rs` (crate `simple_wal`): a write-ahead log
stored as an 8-byte little-endian `first_index` header followed by
back-to-back entry records `[length: u64 LE][payload][crc32: u32 LE]`.

Files are modelled as `List Nat` of bytes.  Machine `u64`/`u32` arithmetic is
modelled on `Nat` with explicit `% 2^64` / `% 2^32` at the operations where
the Rust code performs fixed-width arithmetic (release-mode wrapping
semantics).  Fallible operations return `Except LogError`; I/O failures that
the code can only hit through the OS are injected through explicit oracles.
-/

set_option maxRecDepth 4096

/-- Error type of the crate (`LogError` in `src/lib.rs`).  `IoError` carries an
opaque numeric identity standing for the wrapped `io::Error` value, so that
distinct underlying OS failures can be told apart. -/
inductive LogError where
  | BadChecksum
  | OutOfBounds
  | IoError (code : Nat)
  | AlreadyLocked
deriving DecidableEq, Repr

/-- In-memory state of `LogFile`: the `first_index` and `len` fields.  The
`path`, lock and file handle are modelled separately (the file is a
`List Nat` passed alongside). -/
structure LogState where
  first_index : Nat
  len : Nat
deriving DecidableEq, Repr

/-- Little-endian byte encoding of `n` on `k` bytes (the `to_le_bytes`
truncation to `k` bytes is implicit in the repeated `/ 256`). -/
def leBytes : Nat → Nat → List Nat
  | 0, _ => []
  | k + 1, n => n % 256 :: leBytes k (n / 256)

/-- Little-endian decoding of a byte list (`u64::from_le_bytes` /
`u32::from_le_bytes` on the appropriate lengths). -/
def fromLEBytes : List Nat → Nat
  | [] => 0
  | b :: bs => b + 256 * fromLEBytes bs

theorem leBytes_length (k n : Nat) : (leBytes k n).length = k := by
  induction k generalizing n with
  | zero => rfl
  | succ k ih => simp [leBytes, ih]

theorem leBytes_lt (k n : Nat) : ∀ b ∈ leBytes k n, b < 256 := by
  induction k generalizing n with
  | zero => simp [leBytes]
  | succ k ih =>
    intro b hb
    simp only [leBytes, List.mem_cons] at hb
    rcases hb with h | h
    · subst h; exact Nat.mod_lt _ (by omega)
    · exact ih _ b h

theorem fromLEBytes_leBytes (k n : Nat) :
    fromLEBytes (leBytes k n) = n % 2 ^ (8 * k) := by
  induction k generalizing n with
  | zero => simp [leBytes, fromLEBytes, Nat.mod_one]
  | succ k ih =>
    have h2 : (2 : Nat) ^ (8 * (k + 1)) = 256 * 2 ^ (8 * k) := by
      rw [Nat.mul_add, Nat.pow_add]; ring
    simp only [leBytes, fromLEBytes]
    rw [ih, h2, Nat.mod_mul]

/-! ## CRC32

Modelled from the spec: the external checksum capability (the `crc32fast`
crate, not part of this repository's sources) — "compute/verify a 32-bit
checksum over a byte sequence, order-preserving and incremental".  This is
the standard reflected CRC-32 (polynomial `0xEDB88320`, initial value
`0xFFFFFFFF`, final complement), which is what `crc32fast::Hasher` computes.
-/

/-- The bit-reversed CRC-32 polynomial. -/
def crcPoly : Nat := 0xEDB88320

/-- One bit step of the reflected CRC-32: shift right, conditionally xor the
polynomial when the shifted-out bit was set. -/
def crcBit (s : Nat) : Nat :=
  if s % 2 = 1 then (s >>> 1) ^^^ crcPoly else s >>> 1

/-- One byte step: xor the byte into the state, then run eight bit steps. -/
def crcByte (s b : Nat) : Nat := crcBit^[8] (s ^^^ b)

/-- Run the CRC state over a list of bytes (`Hasher::update`). -/
def crcFold (s : Nat) (l : List Nat) : Nat := l.foldl crcByte s

/-- CRC-32 checksum of a byte list (`Hasher::finalize` after updating,
including the implicit initial/final complement of `crc32fast`). -/
def crc32 (l : List Nat) : Nat := crcFold 0xFFFFFFFF l ^^^ 0xFFFFFFFF

theorem shiftRight_xor_distrib (a b k : Nat) :
    (a ^^^ b) >>> k = (a >>> k) ^^^ (b >>> k) := by
  apply Nat.eq_of_testBit_eq
  intro i
  simp [Nat.testBit_shiftRight, Nat.testBit_xor]

theorem crcBit_lt {s : Nat} (hs : s < 2 ^ 32) : crcBit s < 2 ^ 32 := by
  have h1 : s >>> 1 < 2 ^ 32 := by
    rw [Nat.shiftRight_one]
    exact Nat.lt_of_le_of_lt (Nat.div_le_self s 2) hs
  unfold crcBit
  split
  · exact Nat.xor_lt_two_pow h1 (by decide)
  · exact h1

theorem crcBit_top {s : Nat} (hs : s < 2 ^ 32) : crcBit s >>> 31 = s % 2 := by
  have h32 : s >>> 1 >>> 31 = 0 := by
    rw [← Nat.shiftRight_add, Nat.shiftRight_eq_div_pow]
    exact Nat.div_eq_of_lt (Nat.lt_of_lt_of_le hs (by norm_num))
  unfold crcBit
  split
  · rename_i h
    rw [shiftRight_xor_distrib, h32, h]
    decide
  · rename_i h
    rw [h32]
    omega

theorem crcBit_inj {s t : Nat} (hs : s < 2 ^ 32) (ht : t < 2 ^ 32)
    (h : crcBit s = crcBit t) : s = t := by
  have hp : s % 2 = t % 2 := by
    rw [← crcBit_top hs, ← crcBit_top ht, h]
  have hs1 : s >>> 1 = s / 2 := Nat.shiftRight_one s
  have ht1 : t >>> 1 = t / 2 := Nat.shiftRight_one t
  unfold crcBit at h
  by_cases hpar : s % 2 = 1
  · rw [if_pos hpar, if_pos (hp ▸ hpar)] at h
    have := Nat.xor_left_inj.mp h
    rw [hs1, ht1] at this
    omega
  · rw [if_neg hpar, if_neg (fun hc => hpar (hp ▸ hc))] at h
    rw [hs1, ht1] at h
    omega

theorem crcIter_lt : ∀ (m : Nat) {s : Nat}, s < 2 ^ 32 → crcBit^[m] s < 2 ^ 32 := by
  intro m
  induction m with
  | zero => intro s hs; simpa using hs
  | succ m ih =>
    intro s hs
    rw [Function.iterate_succ_apply]
    exact ih (crcBit_lt hs)

theorem crcIter_inj : ∀ (m : Nat) {s t : Nat}, s < 2 ^ 32 → t < 2 ^ 32 →
    crcBit^[m] s = crcBit^[m] t → s = t := by
  intro m
  induction m with
  | zero => intro s t _ _ h; simpa using h
  | succ m ih =>
    intro s t hs ht h
    rw [Function.iterate_succ_apply, Function.iterate_succ_apply] at h
    exact crcBit_inj hs ht (ih (crcBit_lt hs) (crcBit_lt ht) h)

theorem crcByte_lt {s b : Nat} (hs : s < 2 ^ 32) (hb : b < 256) :
    crcByte s b < 2 ^ 32 :=
  crcIter_lt 8 (Nat.xor_lt_two_pow hs (Nat.lt_of_lt_of_le hb (by norm_num)))

theorem crcByte_inj_state {s t b : Nat} (hs : s < 2 ^ 32) (ht : t < 2 ^ 32)
    (hb : b < 256) (h : crcByte s b = crcByte t b) : s = t := by
  have hb32 : b < 2 ^ 32 := Nat.lt_of_lt_of_le hb (by norm_num)
  have := crcIter_inj 8 (Nat.xor_lt_two_pow hs hb32) (Nat.xor_lt_two_pow ht hb32) h
  exact Nat.xor_left_inj.mp this

theorem crcByte_inj_byte {s b c : Nat} (hs : s < 2 ^ 32) (hb : b < 256)
    (hc : c < 256) (h : crcByte s b = crcByte s c) : b = c := by
  have hb32 : b < 2 ^ 32 := Nat.lt_of_lt_of_le hb (by norm_num)
  have hc32 : c < 2 ^ 32 := Nat.lt_of_lt_of_le hc (by norm_num)
  have := crcIter_inj 8 (Nat.xor_lt_two_pow hs hb32) (Nat.xor_lt_two_pow hs hc32) h
  exact Nat.xor_right_inj.mp this

theorem crcFold_lt {l : List Nat} : ∀ {s : Nat}, s < 2 ^ 32 →
    (∀ x ∈ l, x < 256) → crcFold s l < 2 ^ 32 := by
  induction l with
  | nil => intro s hs _; simpa [crcFold] using hs
  | cons a l ih =>
    intro s hs hl
    have ha : a < 256 := hl a (List.mem_cons_self a l)
    exact ih (crcByte_lt hs ha) (fun x hx => hl x (List.mem_cons_of_mem a hx))

theorem crcFold_inj_state {l : List Nat} : ∀ {s t : Nat}, s < 2 ^ 32 →
    t < 2 ^ 32 → (∀ x ∈ l, x < 256) → crcFold s l = crcFold t l → s = t := by
  induction l with
  | nil => intro s t _ _ _ h; simpa [crcFold] using h
  | cons a l ih =>
    intro s t hs ht hl h
    have ha : a < 256 := hl a (List.mem_cons_self a l)
    have htail : ∀ x ∈ l, x < 256 := fun x hx => hl x (List.mem_cons_of_mem a hx)
    exact crcByte_inj_state hs ht ha
      (ih (crcByte_lt hs ha) (crcByte_lt ht ha) htail h)

theorem crc32_lt {l : List Nat} (hl : ∀ x ∈ l, x < 256) : crc32 l < 2 ^ 32 :=
  Nat.xor_lt_two_pow (crcFold_lt (by norm_num) hl) (by decide)

/-- Changing a single byte of a payload always changes its CRC-32. -/
theorem crc32_flip {l : List Nat} {i b : Nat} (hl : ∀ x ∈ l, x < 256)
    (hi : i < l.length) (hb : b < 256) (hne : b ≠ l.get ⟨i, hi⟩) :
    crc32 (l.set i b) ≠ crc32 l := by
  intro hEq
  apply hne
  have hsplit : l.set i b = l.take i ++ b :: l.drop (i + 1) :=
    List.set_eq_take_cons_drop b hi
  have hself : l = l.take i ++ l.get ⟨i, hi⟩ :: l.drop (i + 1) := by
    conv_lhs => rw [← List.take_append_drop i l]
    rw [List.drop_eq_getElem_cons hi]
    rfl
  have hEq' : crcFold 0xFFFFFFFF (l.set i b) = crcFold 0xFFFFFFFF l :=
    Nat.xor_left_inj.mp hEq
  have h1 : crcFold 0xFFFFFFFF (l.set i b)
      = crcFold (crcByte (crcFold 0xFFFFFFFF (l.take i)) b) (l.drop (i + 1)) := by
    rw [hsplit]
    simp only [crcFold, List.foldl_append, List.foldl_cons]
  have h2 : crcFold 0xFFFFFFFF l
      = crcFold (crcByte (crcFold 0xFFFFFFFF (l.take i)) (l.get ⟨i, hi⟩))
          (l.drop (i + 1)) := by
    conv_lhs => rw [hself]
    simp only [crcFold, List.foldl_append, List.foldl_cons]
  rw [h1, h2] at hEq'
  have htake : ∀ x ∈ l.take i, x < 256 := fun x hx => hl x (List.mem_of_mem_take hx)
  have hdrop : ∀ x ∈ l.drop (i + 1), x < 256 := fun x hx => hl x (List.mem_of_mem_drop hx)
  have hst : crcFold 0xFFFFFFFF (l.take i) < 2 ^ 32 :=
    crcFold_lt (by norm_num) htake
  have hgi : l.get ⟨i, hi⟩ < 256 := hl _ (l.get_mem i hi)
  have hbyteEq := crcFold_inj_state (crcByte_lt hst hb) (crcByte_lt hst hgi) hdrop hEq'
  exact crcByte_inj_byte hst hb hgi hbyteEq

/-! ## On-disk format

A file is a `List Nat` of bytes: an 8-byte little-endian `first_index`
header followed by back-to-back records `[length u64 LE][payload][4 checksum
bytes]`.  Records are kept abstract as payload/checksum-field pairs so that
structural properties (the recovery scan, seeking) can be stated without
assuming the checksum is valid; `encodeEntry` instantiates the checksum field
with the CRC-32 actually written by `LogFile::write`. -/

/-- Bytes of one record: length field, payload, stored checksum field. -/
def rawEntry (r : List Nat × List Nat) : List Nat :=
  leBytes 8 r.1.length ++ r.1 ++ r.2

/-- Structural well-formedness of a record: the payload length is a real
Rust allocation size (at most `isize::MAX`, so `length + 4` cannot wrap a
`u64`), and the checksum field is 4 bytes wide. -/
def RawWF (r : List Nat × List Nat) : Prop :=
  r.1.length < 2 ^ 63 ∧ r.2.length = 4

/-- Concatenated bytes of a record list. -/
def rawBytes (rs : List (List Nat × List Nat)) : List Nat :=
  (rs.map rawEntry).flatten

/-- Byte offset of the start of the `j`-th record (the header is 8 bytes). -/
def rawPos (rs : List (List Nat × List Nat)) (j : Nat) : Nat :=
  8 + (rawBytes (rs.take j)).length

/-- A payload as `LogFile::write` accepts it: a byte vector. -/
def PayloadWF (p : List Nat) : Prop :=
  p.length < 2 ^ 63 ∧ ∀ b ∈ p, b < 256

/-- Records as produced by `LogFile::write`: payload with its CRC-32. -/
def toRaw (ps : List (List Nat)) : List (List Nat × List Nat) :=
  ps.map fun p => (p, leBytes 4 (crc32 p))

/-- Bytes `LogFile::write` appends for one payload. -/
def encodeEntry (p : List Nat) : List Nat :=
  rawEntry (p, leBytes 4 (crc32 p))

/-- Full file contents of a log holding `ps` starting at index `fi`. -/
def encodeLog (fi : Nat) (ps : List (List Nat)) : List Nat :=
  leBytes 8 fi ++ rawBytes (toRaw ps)

/-- Byte offset of the start of payload `j`'s record in `encodeLog`. -/
def entryPos (ps : List (List Nat)) (j : Nat) : Nat :=
  rawPos (toRaw ps) j

/-- `ReadExt::read_u64` at a file position: 8 little-endian bytes, or an I/O
error (`None`) when fewer than 8 bytes remain. -/
def readU64At (file : List Nat) (pos : Nat) : Option Nat :=
  if pos + 8 ≤ file.length then some (fromLEBytes ((file.drop pos).take 8)) else none

/-- `ReadExt::read_u32` at a file position. -/
def readU32At (file : List Nat) (pos : Nat) : Option Nat :=
  if pos + 4 ≤ file.length then some (fromLEBytes ((file.drop pos).take 4)) else none

/-! ## Open / recovery -/

/-- The recovery scan loop of `LogFile::open` (`while file_size - pos > 8`).
`pos` is the offset of the end of the last complete entry seen so far, `k`
the number of complete entries.  `(elen + 4) % 2^64` is the `u64` computation
`file.read_u64()? + 4` (release-mode wrapping).  The fuel argument is only a
structural termination bound: every iteration advances `pos` by at least 12,
so `file.length + 1` units of fuel are always sufficient. -/
def scanGo (file : List Nat) : Nat → Nat → Nat → Nat × Nat
  | 0, pos, k => (pos, k)
  | fuel + 1, pos, k =>
    if file.length - pos > 8 then
      let elen := fromLEBytes ((file.drop pos).take 8)
      let need := (elen + 4) % 2 ^ 64
      if file.length - pos - 8 < need then (pos, k)
      else scanGo file fuel (pos + 8 + need) (k + 1)
    else (pos, k)

/-- `LogFile::open` on a file's byte contents (the success path: the advisory
lock and the OS calls succeed).  Returns the resulting in-memory state and
the file contents after the recovery truncation (`set_len`).  A file shorter
than 8 bytes is initialized to an 8-byte zero header. -/
def openLog (file : List Nat) : LogState × List Nat :=
  if 8 ≤ file.length then
    let fi := fromLEBytes (file.take 8)
    let s := scanGo file (file.length + 1) 8 0
    (⟨fi, s.2⟩, file.take s.1)
  else
    (⟨0, 0⟩, leBytes 8 0)

/-! ## Cursor: seek and read -/

/-- The skip loop of `LogEntry::seek`: `steps` times, read a length field and
jump over `length + 4` more bytes (the payload and checksum). -/
def seekGo (file : List Nat) : Nat → Nat → Except LogError Nat
  | 0, pos => .ok pos
  | steps + 1, pos =>
    match readU64At file pos with
    | none => .error (.IoError 0)
    | some elen => seekGo file steps (pos + 8 + (elen + 4) % 2 ^ 64)

/-- `LogEntry::seek`: a cursor at `index` (file position `pos`) moves forward
to `to`.  Fails with `OutOfBounds` when `to` is past the one-past-last
sentinel `first_index + len` or behind the current index. -/
def entrySeek (st : LogState) (file : List Nat) (index pos toIdx : Nat) :
    Except LogError (Nat × Nat) :=
  if toIdx > (st.first_index + st.len) % 2 ^ 64 ∨ toIdx < index then .error .OutOfBounds
  else
    match seekGo file (toIdx - index) pos with
    | .error e => .error e
    | .ok p => .ok (toIdx, p)

/-- `LogFile::first_entry`: a cursor at the first entry (file position 8);
`OutOfBounds` on an empty log. -/
def firstEntryM (st : LogState) : Except LogError (Nat × Nat) :=
  if st.len = 0 then .error .OutOfBounds else .ok (st.first_index, 8)

/-- `LogFile::seek`: `first_entry` then `LogEntry::seek`. -/
def seekM (st : LogState) (file : List Nat) (toIdx : Nat) :
    Except LogError (Nat × Nat) :=
  match firstEntryM st with
  | .error e => .error e
  | .ok c => entrySeek st file c.1 c.2 toIdx

/-- `LogEntry::read_to_next`: read the length field, stream the payload (the
source reads it in 8 KiB chunks into the sink while feeding the hasher; the
model takes the same byte slice at once), read the stored checksum and
compare with the computed CRC-32.  Returns the payload (the sink contents)
and the next cursor when `index + 1` is still below `first_index + len`.
A structurally truncated record is modelled as an I/O error. -/
def readToNext (st : LogState) (file : List Nat) (index pos : Nat) :
    Except LogError (List Nat × Option (Nat × Nat)) :=
  match readU64At file pos with
  | none => .error (.IoError 0)
  | some elen =>
    if pos + 8 + elen ≤ file.length then
      let payload := (file.drop (pos + 8)).take elen
      match readU32At file (pos + 8 + elen) with
      | none => .error (.IoError 0)
      | some chk =>
        if chk ≠ crc32 payload then .error .BadChecksum
        else if (st.first_index + st.len) % 2 ^ 64 > (index + 1) % 2 ^ 64 then
          .ok (payload, some ((index + 1) % 2 ^ 64, pos + 8 + elen + 4))
        else .ok (payload, none)
    else .error (.IoError 0)

/-! ## Range iteration -/

/-- `LogFile::last_index`: `first_index + len - 1` in wrapping `u64`
arithmetic (meaningless when `len == 0`, see claim C10). -/
def lastIndexW (st : LogState) : Nat :=
  ((st.first_index + st.len) % 2 ^ 64 + (2 ^ 64 - 1)) % 2 ^ 64

/-- Wrapping `u64` decrement, as in `*x - 1` of `LogFile::iter`. -/
def wsub1 (x : Nat) : Nat := (x + (2 ^ 64 - 1)) % 2 ^ 64

/-- `std::ops::Bound` for one end of a requested range. -/
inductive RBound where
  | unbounded
  | included (x : Nat)
  | excluded (x : Nat)
deriving DecidableEq, Repr

/-- The `LogIterator` pull loop: stop when the cursor is gone or past
`lastIdx`; otherwise `read_to_next`, yielding the decoded payload or a
single terminal error item.  The fuel is a structural bound: the cursor
index grows by 1 each pull, so `lastIdx + 1 - startIndex` suffices and the
zero-fuel branch is unreachable from `iterM`. -/
def iterGo (st : LogState) (file : List Nat) (lastIdx : Nat) :
    Nat → Option (Nat × Nat) → List (Except LogError (List Nat))
  | _, none => []
  | fuel, some c =>
    if c.1 > lastIdx then []
    else
      match fuel with
      | 0 => []
      | fuel' + 1 =>
        match readToNext st file c.1 c.2 with
        | .error e => [.error e]
        | .ok pr => .ok pr.1 :: iterGo st file lastIdx fuel' pr.2

/-- Resolution of the requested end bound in `LogFile::iter` (`match
range.end_bound()`): the resolved bound must be strictly within the
populated range, `OutOfBounds` otherwise. -/
def resolveEnd (st : LogState) : RBound → Except LogError Nat
  | .unbounded => .ok (lastIndexW st)
  | .included x => if lastIndexW st > x then .ok x else .error LogError.OutOfBounds
  | .excluded x =>
    if lastIndexW st > wsub1 x then .ok (wsub1 x) else .error LogError.OutOfBounds

/-- Resolution of the requested start bound in `LogFile::iter` (`match
range.start_bound()`), producing the initial cursor. -/
def resolveStart (st : LogState) (file : List Nat) : RBound → Except LogError (Nat × Nat)
  | .unbounded => firstEntryM st
  | .included x => seekM st file x
  | .excluded x => seekM st file ((x + 1) % 2 ^ 64)

/-- `LogFile::iter`: an empty log yields an empty iterator for every range;
otherwise the end bound is resolved first, then the start bound, each
early-returning its error (the `?` operator is modelled with `Except.bind`),
and the iterator is drained. -/
def iterM (st : LogState) (file : List Nat) (sb eb : RBound) :
    Except LogError (List (Except LogError (List Nat))) :=
  if st.len = 0 then .ok []
  else
    (resolveEnd st eb).bind fun lastIdx =>
    (resolveStart st file sb).bind fun c =>
    .ok (iterGo st file lastIdx (lastIdx + 1 - c.1) (some c))

/-! ## Append -/

/-- Failure injection for one `LogFile::write` call.  The five chained
operations are numbered 0–4: write the length field, write the payload,
first flush, write the checksum, second flush.  `failStep = some k` makes
operation `k` fail with the `io::Error` identified by `writeErr`, after
writing `partBytes` bytes of that operation's data; `truncFails` makes the
subsequent repair `set_len` fail with `truncErr`. -/
structure WOracle where
  failStep : Option Nat
  partBytes : Nat
  writeErr : Nat
  truncFails : Bool
  truncErr : Nat
deriving DecidableEq, Repr

/-- `File::set_len`: truncate or zero-extend to exactly `n` bytes. -/
def setLen (l : List Nat) (n : Nat) : List Nat :=
  l.take n ++ List.replicate (n - l.length) 0

/-- Bytes written by operation `k` of the append chain. -/
def stepBytes (p : List Nat) : Nat → List Nat
  | 0 => leBytes 8 p.length
  | 1 => p
  | 3 => leBytes 4 (crc32 p)
  | _ => []

/-- Bytes fully written by the operations before `k`. -/
def writtenBefore (p : List Nat) (k : Nat) : List Nat :=
  ((List.range k).map (stepBytes p)).flatten

/-- Result of one `LogFile::write` call: the returned `io::Result` (errors
carry the opaque identity of the underlying `io::Error`), and the state and
file afterwards. -/
structure WResult where
  res : Except Nat Unit
  st : LogState
  file : List Nat
deriving Repr

/-- `LogFile::write`: seek to the end, then the two-phase chain
(length+payload, flush, checksum, flush).  On success `len` is incremented;
on failure the code runs `set_len(end_pos + 1)?`, which truncates to one
byte PAST the original end of file, and — through the `?` operator — on a
`set_len` failure returns that error, discarding the original one. -/
def writeM (st : LogState) (file : List Nat) (p : List Nat) (o : WOracle) :
    WResult :=
  let endPos := file.length
  match o.failStep with
  | none =>
    ⟨.ok (), ⟨st.first_index, (st.len + 1) % 2 ^ 64⟩,
      file ++ leBytes 8 p.length ++ p ++ leBytes 4 (crc32 p)⟩
  | some k =>
    let fileAfter := file ++ writtenBefore p k ++ (stepBytes p k).take o.partBytes
    if o.truncFails then ⟨.error o.truncErr, st, fileAfter⟩
    else ⟨.error o.writeErr, st, setLen fileAfter (endPos + 1)⟩

/-- The all-success oracle: every OS call during the append works. -/
def oracleOk : WOracle := ⟨none, 0, 0, false, 0⟩

/-- Fold of successful `write` calls, in order. -/
def writeAll (st : LogState) (file : List Nat) (ps : List (List Nat)) :
    LogState × List Nat :=
  ps.foldl (fun a p => let w := writeM a.1 a.2 p oracleOk; (w.st, w.file)) (st, file)

/-- `LogFile::flush`: flushes OS buffers; no effect on the modelled
contents. -/
def flushM (st : LogState) (file : List Nat) : LogState × List Nat := (st, file)

/-! ## Compaction -/

/-- `LogFile::compact`: flush, seek a cursor to `new_start_index` (this is
where an empty or out-of-range request fails with `OutOfBounds`), write the
new 8-byte header into a fresh temp file, copy every remaining byte from the
cursor position to the end, atomically rename, and update the in-memory
state.  The subtractions cannot underflow on any success path (`seekM`
guarantees `first_index ≤ k ≤ first_index + len`). -/
def compactM (st : LogState) (file : List Nat) (k : Nat) :
    Except LogError (LogState × List Nat) :=
  match seekM st file k with
  | .error e => .error e
  | .ok c =>
    .ok (⟨k, st.len - (k - st.first_index)⟩, leBytes 8 k ++ file.drop c.2)

/-- The set of valid (readable) entry indices of a log state. -/
def validIndex (st : LogState) (j : Nat) : Prop :=
  st.first_index ≤ j ∧ j < st.first_index + st.len

/-! ## Structural lemmas about the on-disk layout -/

theorem readU64At_append (a b : List Nat) (n : Nat) :
    readU64At (a ++ (leBytes 8 n ++ b)) a.length = some (n % 2 ^ 64) := by
  unfold readU64At
  rw [if_pos (by simp [leBytes_length]), List.drop_left,
    List.take_left' (leBytes_length 8 n), fromLEBytes_leBytes]

theorem readU32At_append (a b c : List Nat) (h4 : c.length = 4) :
    readU32At (a ++ (c ++ b)) a.length = some (fromLEBytes c) := by
  unfold readU32At
  rw [if_pos (by simp [List.length_append, h4]), List.drop_left, List.take_left' h4]

theorem rawEntry_length (r : List Nat × List Nat) :
    (rawEntry r).length = 8 + r.1.length + r.2.length := by
  simp [rawEntry, leBytes_length]; omega

theorem rawBytes_nil : rawBytes [] = [] := rfl

theorem rawBytes_cons (r : List Nat × List Nat) (rs : List (List Nat × List Nat)) :
    rawBytes (r :: rs) = rawEntry r ++ rawBytes rs := by
  simp [rawBytes]

theorem rawBytes_append (rs ts : List (List Nat × List Nat)) :
    rawBytes (rs ++ ts) = rawBytes rs ++ rawBytes ts := by
  simp [rawBytes]

theorem rawPos_zero (rs : List (List Nat × List Nat)) : rawPos rs 0 = 8 := by
  simp [rawPos, rawBytes]

theorem rawPos_succ (rs : List (List Nat × List Nat)) (j : Nat) (hj : j < rs.length) :
    rawPos rs (j + 1) = rawPos rs j + (rawEntry rs[j]).length := by
  have h : rs.take (j + 1) = rs.take j ++ [rs[j]] := by
    rw [List.take_succ, List.getElem?_eq_getElem hj]
    rfl
  unfold rawPos
  rw [h, rawBytes_append]
  have hB : (rawBytes [rs[j]]).length = (rawEntry rs[j]).length := by
    simp [rawBytes]
  rw [List.length_append, hB]
  omega

theorem file_decomp (fi : Nat) (rs : List (List Nat × List Nat)) (j : Nat)
    (hj : j < rs.length) :
    leBytes 8 fi ++ rawBytes rs
    = (leBytes 8 fi ++ rawBytes (rs.take j))
      ++ (leBytes 8 rs[j].1.length ++ (rs[j].1 ++ (rs[j].2 ++ rawBytes (rs.drop (j + 1))))) := by
  conv_lhs => rw [← List.take_append_drop j rs]
  rw [rawBytes_append, List.drop_eq_getElem_cons hj, rawBytes_cons, rawEntry]
  simp

theorem prefix_length_rawPos (fi : Nat) (rs : List (List Nat × List Nat)) (j : Nat) :
    (leBytes 8 fi ++ rawBytes (rs.take j)).length = rawPos rs j := by
  simp [rawPos, leBytes_length]

theorem file_length_rawPos (fi : Nat) (rs : List (List Nat × List Nat)) :
    (leBytes 8 fi ++ rawBytes rs).length = rawPos rs rs.length := by
  simp [rawPos, leBytes_length, List.take_length]

theorem drop_rawPos (fi : Nat) (rs : List (List Nat × List Nat)) (j : Nat) :
    (leBytes 8 fi ++ rawBytes rs).drop (rawPos rs j) = rawBytes (rs.drop j) := by
  have hsplit : leBytes 8 fi ++ rawBytes rs
      = (leBytes 8 fi ++ rawBytes (rs.take j)) ++ rawBytes (rs.drop j) := by
    conv_lhs => rw [← List.take_append_drop j rs]
    rw [rawBytes_append, ← List.append_assoc]
  rw [hsplit, List.drop_left' (prefix_length_rawPos fi rs j)]

theorem read_len_at (fi : Nat) (rs : List (List Nat × List Nat)) (j : Nat)
    (hj : j < rs.length) :
    readU64At (leBytes 8 fi ++ rawBytes rs) (rawPos rs j)
    = some (rs[j].1.length % 2 ^ 64) := by
  rw [file_decomp fi rs j hj, ← prefix_length_rawPos fi rs j]
  exact readU64At_append _ _ _

theorem read_payload_at (fi : Nat) (rs : List (List Nat × List Nat)) (j : Nat)
    (hj : j < rs.length) :
    ((leBytes 8 fi ++ rawBytes rs).drop (rawPos rs j + 8)).take rs[j].1.length
    = rs[j].1 := by
  rw [file_decomp fi rs j hj]
  have hlen : ((leBytes 8 fi ++ rawBytes (rs.take j)) ++ leBytes 8 rs[j].1.length).length
      = rawPos rs j + 8 := by
    simp [leBytes_length, rawPos]
    omega
  rw [show (leBytes 8 fi ++ rawBytes (rs.take j))
        ++ (leBytes 8 rs[j].1.length ++ (rs[j].1 ++ (rs[j].2 ++ rawBytes (rs.drop (j + 1)))))
      = ((leBytes 8 fi ++ rawBytes (rs.take j)) ++ leBytes 8 rs[j].1.length)
        ++ (rs[j].1 ++ (rs[j].2 ++ rawBytes (rs.drop (j + 1)))) by simp]
  rw [List.drop_left' hlen, List.take_left]

theorem read_chk_at (fi : Nat) (rs : List (List Nat × List Nat)) (j : Nat)
    (hj : j < rs.length) (h4 : rs[j].2.length = 4) :
    readU32At (leBytes 8 fi ++ rawBytes rs) (rawPos rs j + 8 + rs[j].1.length)
    = some (fromLEBytes rs[j].2) := by
  rw [file_decomp fi rs j hj]
  have hlen : (((leBytes 8 fi ++ rawBytes (rs.take j)) ++ leBytes 8 rs[j].1.length)
      ++ rs[j].1).length = rawPos rs j + 8 + rs[j].1.length := by
    simp [leBytes_length, rawPos]
    omega
  rw [show (leBytes 8 fi ++ rawBytes (rs.take j))
        ++ (leBytes 8 rs[j].1.length ++ (rs[j].1 ++ (rs[j].2 ++ rawBytes (rs.drop (j + 1)))))
      = (((leBytes 8 fi ++ rawBytes (rs.take j)) ++ leBytes 8 rs[j].1.length) ++ rs[j].1)
        ++ (rs[j].2 ++ rawBytes (rs.drop (j + 1))) by simp]
  rw [← hlen]
  exact readU32At_append _ _ _ h4

/-! ## Recovery scan -/

theorem length_le_rawBytes (rs : List (List Nat × List Nat)) :
    rs.length ≤ (rawBytes rs).length := by
  induction rs with
  | nil => simp [rawBytes]
  | cons r rs ih =>
    rw [rawBytes_cons, List.length_append]
    have h1 : 1 ≤ (rawEntry r).length := by rw [rawEntry_length]; omega
    simp only [List.length_cons]
    omega

theorem scanGo_skip : ∀ (rs : List (List Nat × List Nat)) (pre junk : List Nat)
    (k fuel : Nat), (∀ r ∈ rs, RawWF r) → 8 ≤ pre.length →
    scanGo (pre ++ (rawBytes rs ++ junk)) (fuel + rs.length) pre.length k
    = scanGo (pre ++ (rawBytes rs ++ junk)) fuel
        (pre.length + (rawBytes rs).length) (k + rs.length) := by
  intro rs
  induction rs with
  | nil =>
    intro pre junk k fuel _ _
    simp [rawBytes_nil]
  | cons r rs ih =>
    intro pre junk k fuel hwf hpre
    have hrw : RawWF r := hwf r (List.mem_cons_self r rs)
    have hrs : ∀ x ∈ rs, RawWF x := fun x hx => hwf x (List.mem_cons_of_mem r hx)
    obtain ⟨hL, h4⟩ := hrw
    have hp64 : (2 : Nat) ^ 63 + 4 ≤ 2 ^ 64 := by norm_num
    have hre : (rawEntry r).length = 8 + r.1.length + 4 := by
      rw [rawEntry_length, h4]
    have hfile : pre ++ (rawBytes (r :: rs) ++ junk)
        = (pre ++ rawEntry r) ++ (rawBytes rs ++ junk) := by
      rw [rawBytes_cons]
      simp
    have hflen : (pre ++ (rawBytes (r :: rs) ++ junk)).length
        = pre.length + ((8 + r.1.length + 4) + ((rawBytes rs).length + junk.length)) := by
      rw [hfile]
      simp only [List.length_append, hre]
      omega
    have hguard1 : (pre ++ (rawBytes (r :: rs) ++ junk)).length - pre.length > 8 := by
      omega
    have hdrop : (pre ++ (rawBytes (r :: rs) ++ junk)).drop pre.length
        = rawEntry r ++ (rawBytes rs ++ junk) := by
      rw [hfile, List.append_assoc pre (rawEntry r) (rawBytes rs ++ junk)]
      exact List.drop_left pre _
    have helen : fromLEBytes (((pre ++ (rawBytes (r :: rs) ++ junk)).drop pre.length).take 8)
        = r.1.length := by
      rw [hdrop, rawEntry,
        show (leBytes 8 r.1.length ++ r.1 ++ r.2) ++ (rawBytes rs ++ junk)
          = leBytes 8 r.1.length ++ (r.1 ++ (r.2 ++ (rawBytes rs ++ junk))) by simp,
        List.take_left' (leBytes_length 8 r.1.length), fromLEBytes_leBytes]
      exact Nat.mod_eq_of_lt (by omega)
    have hneed : (r.1.length + 4) % 2 ^ 64 = r.1.length + 4 :=
      Nat.mod_eq_of_lt (by omega)
    have hguard2 : ¬((pre ++ (rawBytes (r :: rs) ++ junk)).length - pre.length - 8
        < r.1.length + 4) := by
      omega
    have hstep : scanGo (pre ++ (rawBytes (r :: rs) ++ junk)) ((fuel + rs.length) + 1)
          pre.length k
        = scanGo (pre ++ (rawBytes (r :: rs) ++ junk)) (fuel + rs.length)
            (pre.length + 8 + (r.1.length + 4)) (k + 1) := by
      simp only [scanGo]
      rw [if_pos hguard1, helen, hneed, if_neg hguard2]
    have hpos : pre.length + 8 + (r.1.length + 4) = (pre ++ rawEntry r).length := by
      rw [List.length_append, hre]
      omega
    have e1 : fuel + (r :: rs).length = (fuel + rs.length) + 1 := by
      simp only [List.length_cons]
      omega
    rw [e1, hstep, hpos, hfile,
      ih (pre ++ rawEntry r) junk (k + 1) fuel hrs (by rw [List.length_append]; omega)]
    have e2 : (pre ++ rawEntry r).length + (rawBytes rs).length
        = pre.length + (rawBytes (r :: rs)).length := by
      rw [List.length_append, rawBytes_cons, List.length_append]
      omega
    have e3 : k + 1 + rs.length = k + (r :: rs).length := by
      simp only [List.length_cons]
      omega
    rw [e2, e3]

theorem scanGo_stop (pre junk : List Nat) (k fuel : Nat) (h8 : 8 ≤ pre.length)
    (hj : junk.length ≤ 8 ∨ (8 < junk.length ∧
      junk.length - 8 < (fromLEBytes (junk.take 8) + 4) % 2 ^ 64)) :
    scanGo (pre ++ junk) fuel pre.length k = (pre.length, k) := by
  cases fuel with
  | zero => rfl
  | succ fuel =>
    have hlen : (pre ++ junk).length = pre.length + junk.length := by
      simp
    simp only [scanGo]
    rcases hj with h | ⟨h1, h2⟩
    · rw [if_neg (by omega)]
    · rw [if_pos (by omega), List.drop_left,
        if_pos (by rw [hlen]; omega)]

theorem openLog_wf (fi : Nat) (rs : List (List Nat × List Nat)) (junk : List Nat)
    (hwf : ∀ r ∈ rs, RawWF r) (hfi : fi < 2 ^ 64)
    (hj : junk.length ≤ 8 ∨ (8 < junk.length ∧
      junk.length - 8 < (fromLEBytes (junk.take 8) + 4) % 2 ^ 64)) :
    openLog (leBytes 8 fi ++ (rawBytes rs ++ junk))
    = (⟨fi, rs.length⟩, leBytes 8 fi ++ rawBytes rs) := by
  have h8 : (leBytes 8 fi).length = 8 := leBytes_length 8 fi
  have hfl : (leBytes 8 fi ++ (rawBytes rs ++ junk)).length
      = 8 + ((rawBytes rs).length + junk.length) := by
    simp [h8]
  have hrsle : rs.length ≤ (rawBytes rs).length := length_le_rawBytes rs
  have hfuel : (leBytes 8 fi ++ (rawBytes rs ++ junk)).length + 1
      = ((rawBytes rs).length + junk.length + 9 - rs.length) + rs.length := by
    omega
  have hhead : fromLEBytes ((leBytes 8 fi ++ (rawBytes rs ++ junk)).take 8) = fi := by
    rw [List.take_left' h8, fromLEBytes_leBytes]
    exact Nat.mod_eq_of_lt hfi
  have hassoc : leBytes 8 fi ++ (rawBytes rs ++ junk)
      = (leBytes 8 fi ++ rawBytes rs) ++ junk := by
    simp
  have hpre2 : (leBytes 8 fi ++ rawBytes rs).length = 8 + (rawBytes rs).length := by
    simp [h8]
  have hskip := scanGo_skip rs (leBytes 8 fi) junk 0
    ((rawBytes rs).length + junk.length + 9 - rs.length) hwf (by rw [h8])
  rw [h8] at hskip
  have hstop := scanGo_stop (leBytes 8 fi ++ rawBytes rs) junk rs.length
    ((rawBytes rs).length + junk.length + 9 - rs.length) (by rw [hpre2]; omega) hj
  rw [hpre2] at hstop
  have hscan : scanGo (leBytes 8 fi ++ (rawBytes rs ++ junk))
        ((leBytes 8 fi ++ (rawBytes rs ++ junk)).length + 1) 8 0
      = (8 + (rawBytes rs).length, rs.length) := by
    rw [hfuel, hskip, Nat.zero_add]
    rw [hassoc]
    exact hstop
  simp only [openLog]
  rw [if_pos (by omega), hhead, hscan]
  rw [hassoc, List.take_left' hpre2]

/-! ## Seeking and reading entries -/

theorem rawPos_le_total (rs : List (List Nat × List Nat)) (j : Nat) :
    rawPos rs j ≤ 8 + (rawBytes rs).length := by
  unfold rawPos
  have h : rawBytes rs = rawBytes (rs.take j) ++ rawBytes (rs.drop j) := by
    conv_lhs => rw [← List.take_append_drop j rs]
    rw [rawBytes_append]
  rw [h, List.length_append]
  omega

theorem seekGo_raw (fi : Nat) (rs : List (List Nat × List Nat))
    (hwf : ∀ r ∈ rs, RawWF r) :
    ∀ (m j : Nat), j + m ≤ rs.length →
    seekGo (leBytes 8 fi ++ rawBytes rs) m (rawPos rs j) = .ok (rawPos rs (j + m)) := by
  intro m
  induction m with
  | zero =>
    intro j _
    simp [seekGo]
  | succ m ih =>
    intro j h
    have hj : j < rs.length := by omega
    obtain ⟨hL, h4⟩ := hwf rs[j] (List.getElem_mem hj)
    have hp64 : (2 : Nat) ^ 63 + 4 ≤ 2 ^ 64 := by norm_num
    have hm1 : rs[j].1.length % 2 ^ 64 = rs[j].1.length := Nat.mod_eq_of_lt (by omega)
    simp only [seekGo, read_len_at fi rs j hj, hm1]
    have hm2 : (rs[j].1.length + 4) % 2 ^ 64 = rs[j].1.length + 4 :=
      Nat.mod_eq_of_lt (by omega)
    rw [hm2]
    have heq : rawPos rs j + 8 + (rs[j].1.length + 4) = rawPos rs (j + 1) := by
      rw [rawPos_succ rs j hj, rawEntry_length, h4]
      omega
    rw [heq]
    have hidx : j + (m + 1) = (j + 1) + m := by omega
    rw [hidx]
    exact ih (j + 1) (by omega)

theorem entrySeek_raw (fi : Nat) (rs : List (List Nat × List Nat)) (st : LogState)
    (hst1 : st.first_index = fi) (hst2 : st.len = rs.length)
    (hfl : fi + rs.length < 2 ^ 64) (hwf : ∀ r ∈ rs, RawWF r)
    (i toIdx : Nat) (hi1 : fi ≤ i) :
    (toIdx < i ∨ toIdx > fi + rs.length →
      entrySeek st (leBytes 8 fi ++ rawBytes rs) i (rawPos rs (i - fi)) toIdx
      = .error .OutOfBounds)
    ∧ (i ≤ toIdx → toIdx ≤ fi + rs.length →
      entrySeek st (leBytes 8 fi ++ rawBytes rs) i (rawPos rs (i - fi)) toIdx
      = .ok (toIdx, rawPos rs (toIdx - fi))) := by
  have hmod : (st.first_index + st.len) % 2 ^ 64 = fi + rs.length := by
    rw [hst1, hst2]
    exact Nat.mod_eq_of_lt hfl
  constructor
  · intro hout
    unfold entrySeek
    rw [hmod, if_pos (by omega)]
  · intro h1 h2
    unfold entrySeek
    rw [hmod, if_neg (by omega)]
    have hseek := seekGo_raw fi rs hwf (toIdx - i) (i - fi) (by omega)
    rw [show (i - fi) + (toIdx - i) = toIdx - fi by omega] at hseek
    rw [hseek]

theorem readToNext_raw (fi : Nat) (rs : List (List Nat × List Nat)) (st : LogState)
    (hst1 : st.first_index = fi) (hst2 : st.len = rs.length)
    (hfl : fi + rs.length < 2 ^ 64) (hwf : ∀ r ∈ rs, RawWF r)
    (idx j : Nat) (hj : j < rs.length) (hix : idx + 1 < 2 ^ 64) :
    readToNext st (leBytes 8 fi ++ rawBytes rs) idx (rawPos rs j)
    = if fromLEBytes rs[j].2 = crc32 rs[j].1
      then .ok (rs[j].1,
        if idx + 1 < fi + rs.length then some (idx + 1, rawPos rs (j + 1)) else none)
      else .error .BadChecksum := by
  obtain ⟨hL, h4⟩ := hwf rs[j] (List.getElem_mem hj)
  have h63 : (2 : Nat) ^ 63 ≤ 2 ^ 64 := by norm_num
  have hm1 : rs[j].1.length % 2 ^ 64 = rs[j].1.length :=
    Nat.mod_eq_of_lt (by omega)
  have hsucc : rawPos rs (j + 1) = rawPos rs j + 8 + rs[j].1.length + 4 := by
    rw [rawPos_succ rs j hj, rawEntry_length, h4]
    omega
  have htot := rawPos_le_total rs (j + 1)
  have hflen : (leBytes 8 fi ++ rawBytes rs).length = 8 + (rawBytes rs).length := by
    simp [leBytes_length]
  have hguard : rawPos rs j + 8 + rs[j].1.length ≤ (leBytes 8 fi ++ rawBytes rs).length := by
    omega
  simp only [readToNext, read_len_at fi rs j hj, hm1]
  rw [if_pos hguard, read_payload_at fi rs j hj, read_chk_at fi rs j hj h4]
  have hmod : (st.first_index + st.len) % 2 ^ 64 = fi + rs.length := by
    rw [hst1, hst2]
    exact Nat.mod_eq_of_lt hfl
  have hmodix : (idx + 1) % 2 ^ 64 = idx + 1 := Nat.mod_eq_of_lt hix
  simp only []
  by_cases hc : fromLEBytes rs[j].2 = crc32 rs[j].1
  · rw [if_neg (not_not_intro hc), hmod, hmodix, if_pos hc]
    by_cases hnext : idx + 1 < fi + rs.length
    · rw [if_pos hnext, if_pos hnext, hsucc]
    · rw [if_neg hnext, if_neg hnext]
  · rw [if_pos hc, if_neg hc]

/-! ## Encoded logs and iteration -/

theorem toRaw_length (ps : List (List Nat)) : (toRaw ps).length = ps.length := by
  simp [toRaw]

theorem toRaw_get (ps : List (List Nat)) (j : Nat) (hj : j < ps.length)
    (hj2 : j < (toRaw ps).length) :
    (toRaw ps)[j] = (ps[j], leBytes 4 (crc32 ps[j])) := by
  simp [toRaw]

theorem toRaw_wf (ps : List (List Nat)) (hwf : ∀ p ∈ ps, PayloadWF p) :
    ∀ r ∈ toRaw ps, RawWF r := by
  intro r hr
  simp only [toRaw, List.mem_map] at hr
  obtain ⟨p, hp, rfl⟩ := hr
  exact ⟨(hwf p hp).1, leBytes_length 4 _⟩

theorem chk_ok (p : List Nat) (hp : PayloadWF p) :
    fromLEBytes (leBytes 4 (crc32 p)) = crc32 p := by
  rw [fromLEBytes_leBytes]
  exact Nat.mod_eq_of_lt (crc32_lt hp.2)

theorem encodeLog_raw (fi : Nat) (ps : List (List Nat)) :
    encodeLog fi ps = leBytes 8 fi ++ rawBytes (toRaw ps) := rfl

theorem lastIndexW_eq (st : LogState) (h1 : 1 ≤ st.len)
    (hfl : st.first_index + st.len < 2 ^ 64) :
    lastIndexW st = st.first_index + st.len - 1 := by
  unfold lastIndexW
  rw [Nat.mod_eq_of_lt hfl,
    show st.first_index + st.len + (2 ^ 64 - 1)
      = (st.first_index + st.len - 1) + 2 ^ 64 by omega,
    Nat.add_mod_right]
  exact Nat.mod_eq_of_lt (by omega)

theorem iterGo_encode (fi : Nat) (ps : List (List Nat)) (st : LogState)
    (hst1 : st.first_index = fi) (hst2 : st.len = ps.length)
    (hfl : fi + ps.length < 2 ^ 64) (hwf : ∀ p ∈ ps, PayloadWF p) :
    ∀ (m j : Nat), j + m = ps.length →
    iterGo st (encodeLog fi ps) (fi + ps.length - 1) m
      (some (fi + j, entryPos ps j))
    = (ps.drop j).map .ok := by
  intro m
  induction m with
  | zero =>
    intro j hjm
    simp only [iterGo]
    rw [List.drop_eq_nil_of_le (by omega), List.map_nil]
    split <;> rfl
  | succ m ih =>
    intro j hjm
    have hj : j < ps.length := by omega
    have hjr : j < (toRaw ps).length := by rw [toRaw_length]; exact hj
    have hread := readToNext_raw fi (toRaw ps) st hst1
      (by rw [hst2, toRaw_length]) (by rw [toRaw_length]; exact hfl)
      (toRaw_wf ps hwf) (fi + j) j hjr (by rw [toRaw_length] at *; omega)
    rw [toRaw_get ps j hj hjr] at hread
    rw [chk_ok ps[j] (hwf ps[j] (List.getElem_mem hj)), if_pos rfl,
      toRaw_length] at hread
    simp only [iterGo]
    rw [if_neg (by omega)]
    rw [show entryPos ps j = rawPos (toRaw ps) j from rfl,
      show encodeLog fi ps = leBytes 8 fi ++ rawBytes (toRaw ps) from rfl, hread]
    simp only []
    rw [List.drop_eq_getElem_cons hj, List.map_cons]
    by_cases hlast : fi + j + 1 < fi + ps.length
    · rw [if_pos hlast]
      have htail := ih (j + 1) (by omega)
      rw [show fi + (j + 1) = fi + j + 1 by omega] at htail
      rw [show (encodeLog fi ps : List Nat) = leBytes 8 fi ++ rawBytes (toRaw ps)
          from rfl] at htail
      rw [show (entryPos ps (j + 1) : Nat) = rawPos (toRaw ps) (j + 1) from rfl] at htail
      rw [htail]
    · rw [if_neg hlast]
      have hj1 : ps.length ≤ j + 1 := by omega
      rw [List.drop_eq_nil_of_le hj1]
      simp [iterGo]

theorem iterM_ok_ok (st : LogState) (file : List Nat) (sb eb : RBound)
    (hn : ¬st.len = 0) (L ci cp : Nat)
    (he : resolveEnd st eb = .ok L) (hs : resolveStart st file sb = .ok (ci, cp)) :
    iterM st file sb eb = .ok (iterGo st file L (L + 1 - ci) (some (ci, cp))) := by
  unfold iterM
  rw [if_neg hn, he, hs]
  rfl

theorem iterM_err_end (st : LogState) (file : List Nat) (sb eb : RBound)
    (hn : ¬st.len = 0) (e : LogError) (he : resolveEnd st eb = .error e) :
    iterM st file sb eb = .error e := by
  unfold iterM
  rw [if_neg hn, he]
  rfl

theorem iterM_unbounded (fi : Nat) (ps : List (List Nat)) (st : LogState)
    (hst1 : st.first_index = fi) (hst2 : st.len = ps.length)
    (hfl : fi + ps.length < 2 ^ 64) (hwf : ∀ p ∈ ps, PayloadWF p) :
    iterM st (encodeLog fi ps) .unbounded .unbounded = .ok (ps.map .ok) := by
  by_cases hn : st.len = 0
  · have hps : ps = [] := by
      rw [hst2] at hn
      exact List.eq_nil_of_length_eq_zero hn
    unfold iterM
    rw [if_pos hn, hps]
    rfl
  · have h1 : 1 ≤ st.len := by omega
    have hlast : lastIndexW st = fi + ps.length - 1 := by
      rw [lastIndexW_eq st h1 (by rw [hst1, hst2]; exact hfl), hst1, hst2]
    have hfirst : firstEntryM st = .ok (fi, 8) := by
      unfold firstEntryM
      rw [if_neg hn, hst1]
    have hre : resolveEnd st RBound.unbounded = .ok (fi + ps.length - 1) :=
      congrArg Except.ok hlast
    have hrs : resolveStart st (encodeLog fi ps) RBound.unbounded = .ok (fi, 8) :=
      hfirst
    rw [iterM_ok_ok st (encodeLog fi ps) RBound.unbounded RBound.unbounded hn
      (fi + ps.length - 1) fi 8 hre hrs]
    have hfuel : fi + ps.length - 1 + 1 - fi = ps.length := by omega
    rw [hfuel]
    have hgo := iterGo_encode fi ps st hst1 hst2 hfl hwf ps.length 0 (by omega)
    rw [show entryPos ps 0 = 8 from rawPos_zero (toRaw ps), List.drop_zero] at hgo
    rw [show fi + 0 = fi by omega] at hgo
    rw [hgo]

theorem iterM_from (fi k : Nat) (ps : List (List Nat)) (st : LogState)
    (hst1 : st.first_index = fi) (hst2 : st.len = ps.length)
    (hfl : fi + ps.length < 2 ^ 64) (hwf : ∀ p ∈ ps, PayloadWF p)
    (hk1 : fi ≤ k) (hk2 : k ≤ fi + ps.length - 1) (hn : 1 ≤ ps.length) :
    iterM st (encodeLog fi ps) (.included k) .unbounded
    = .ok ((ps.drop (k - fi)).map .ok) := by
  have hn0 : ¬st.len = 0 := by omega
  have hlast : lastIndexW st = fi + ps.length - 1 := by
    rw [lastIndexW_eq st (by omega) (by rw [hst1, hst2]; exact hfl), hst1, hst2]
  have hfirst : firstEntryM st = .ok (fi, 8) := by
    unfold firstEntryM
    rw [if_neg hn0, hst1]
  have hseek : seekM st (encodeLog fi ps) k = .ok (k, rawPos (toRaw ps) (k - fi)) := by
    unfold seekM
    rw [hfirst]
    have hes := (entrySeek_raw fi (toRaw ps) st hst1 (by rw [hst2, toRaw_length])
      (by rw [toRaw_length]; exact hfl) (toRaw_wf ps hwf) fi k (le_refl fi)).2
      hk1 (by rw [toRaw_length]; omega)
    rw [Nat.sub_self, rawPos_zero] at hes
    exact hes
  have hre : resolveEnd st RBound.unbounded = .ok (fi + ps.length - 1) :=
    congrArg Except.ok hlast
  have hrs : resolveStart st (encodeLog fi ps) (RBound.included k)
      = .ok (k, rawPos (toRaw ps) (k - fi)) := hseek
  rw [iterM_ok_ok st (encodeLog fi ps) (RBound.included k) RBound.unbounded hn0
    (fi + ps.length - 1) k (rawPos (toRaw ps) (k - fi)) hre hrs]
  have hfuel : fi + ps.length - 1 + 1 - k = ps.length - (k - fi) := by omega
  rw [hfuel]
  have hgo := iterGo_encode fi ps st hst1 hst2 hfl hwf (ps.length - (k - fi)) (k - fi)
    (by omega)
  rw [show fi + (k - fi) = k by omega] at hgo
  rw [show (entryPos ps (k - fi) : Nat) = rawPos (toRaw ps) (k - fi) from rfl] at hgo
  rw [hgo]

/-! ## Append and compaction -/

theorem writeM_ok (st : LogState) (fi : Nat) (ps : List (List Nat)) (p : List Nat)
    (hst1 : st.first_index = fi) (hst2 : st.len = ps.length)
    (hlen : ps.length + 1 < 2 ^ 64) :
    writeM st (encodeLog fi ps) p oracleOk
    = ⟨.ok (), ⟨fi, ps.length + 1⟩, encodeLog fi (ps ++ [p])⟩ := by
  unfold writeM oracleOk
  simp only []
  rw [hst1, hst2, Nat.mod_eq_of_lt hlen]
  congr 1
  simp [encodeLog, toRaw, rawBytes, rawEntry, List.map_append]

theorem writeAll_wf : ∀ (ps qs : List (List Nat)) (st : LogState) (fi : Nat),
    st.first_index = fi → st.len = qs.length → qs.length + ps.length < 2 ^ 64 →
    writeAll st (encodeLog fi qs) ps
    = (⟨fi, qs.length + ps.length⟩, encodeLog fi (qs ++ ps)) := by
  intro ps
  induction ps with
  | nil =>
    intro qs st fi h1 h2 _
    obtain ⟨a, b⟩ := st
    simp only [LogState.mk.injEq] at h1 h2
    subst h1
    subst h2
    simp [writeAll]
  | cons p ps ih =>
    intro qs st fi h1 h2 hlen
    unfold writeAll
    have hlen' : qs.length + (ps.length + 1) < 2 ^ 64 := by
      simp only [List.length_cons] at hlen
      omega
    rw [List.foldl_cons, writeM_ok st fi qs p h1 h2 (by omega)]
    have hrec := ih (qs ++ [p]) ⟨fi, qs.length + 1⟩ fi rfl (by simp)
      (by simp only [List.length_append, List.length_cons, List.length_nil]; omega)
    unfold writeAll at hrec
    simp only [] at hrec ⊢
    rw [hrec]
    have e1 : (qs ++ [p]).length + ps.length = qs.length + (p :: ps).length := by
      simp only [List.length_append, List.length_cons, List.length_nil]
      omega
    have e2 : (qs ++ [p]) ++ ps = qs ++ (p :: ps) := by
      simp
    rw [e1, e2]

theorem openLog_encode (fi : Nat) (ps : List (List Nat)) (hfi : fi < 2 ^ 64)
    (hwf : ∀ p ∈ ps, PayloadWF p) :
    openLog (encodeLog fi ps) = (⟨fi, ps.length⟩, encodeLog fi ps) := by
  have h := openLog_wf fi (toRaw ps) [] (toRaw_wf ps hwf) hfi (Or.inl (by simp))
  rw [List.append_nil] at h
  rw [encodeLog_raw, toRaw_length] at *
  exact h

theorem toRaw_drop (ps : List (List Nat)) (j : Nat) :
    (toRaw ps).drop j = toRaw (ps.drop j) := by
  simp [toRaw, List.map_drop]

theorem seekM_ok (fi k : Nat) (ps : List (List Nat)) (st : LogState)
    (hst1 : st.first_index = fi) (hst2 : st.len = ps.length)
    (hfl : fi + ps.length < 2 ^ 64) (hwf : ∀ p ∈ ps, PayloadWF p)
    (hn : ¬st.len = 0) (hk1 : fi ≤ k) (hk2 : k ≤ fi + ps.length) :
    seekM st (encodeLog fi ps) k = .ok (k, rawPos (toRaw ps) (k - fi)) := by
  unfold seekM firstEntryM
  rw [if_neg hn, hst1]
  simp only []
  have hes := (entrySeek_raw fi (toRaw ps) st hst1 (by rw [hst2, toRaw_length])
    (by rw [toRaw_length]; exact hfl) (toRaw_wf ps hwf) fi k (le_refl fi)).2
    hk1 (by rw [toRaw_length]; omega)
  rw [Nat.sub_self, rawPos_zero] at hes
  exact hes

theorem compactM_ok (fi k : Nat) (ps : List (List Nat)) (st : LogState)
    (hst1 : st.first_index = fi) (hst2 : st.len = ps.length)
    (hfl : fi + ps.length < 2 ^ 64) (hwf : ∀ p ∈ ps, PayloadWF p)
    (hn : ¬st.len = 0) (hk1 : fi ≤ k) (hk2 : k ≤ fi + ps.length) :
    compactM st (encodeLog fi ps) k
    = .ok (⟨k, ps.length - (k - fi)⟩, encodeLog k (ps.drop (k - fi))) := by
  unfold compactM
  rw [seekM_ok fi k ps st hst1 hst2 hfl hwf hn hk1 hk2]
  simp only []
  rw [hst1, hst2]
  have hdrop : (encodeLog fi ps).drop (rawPos (toRaw ps) (k - fi))
      = rawBytes (toRaw (ps.drop (k - fi))) := by
    rw [encodeLog_raw, drop_rawPos, toRaw_drop]
  rw [hdrop]
  rfl

theorem compactM_err (fi k : Nat) (ps : List (List Nat)) (st : LogState)
    (hst1 : st.first_index = fi) (hst2 : st.len = ps.length)
    (hfl : fi + ps.length < 2 ^ 64) (hwf : ∀ p ∈ ps, PayloadWF p) :
    (compactM st (encodeLog fi ps) k = .error .OutOfBounds
    ↔ (st.len = 0 ∨ k < fi ∨ k > fi + ps.length)) := by
  by_cases hn : st.len = 0
  · unfold compactM seekM firstEntryM
    rw [if_pos hn]
    simp [hn]
  · constructor
    · intro herr
      by_cases hk : fi ≤ k ∧ k ≤ fi + ps.length
      · rw [compactM_ok fi k ps st hst1 hst2 hfl hwf hn hk.1 hk.2] at herr
        exact absurd herr (by simp)
      · omega
    · intro hor
      rcases hor with h | h | h
      · exact absurd h hn
      all_goals {
        unfold compactM seekM firstEntryM
        rw [if_neg hn, hst1, encodeLog_raw]
        simp only []
        have hes := (entrySeek_raw fi (toRaw ps) st hst1 (by rw [hst2, toRaw_length])
          (by rw [toRaw_length]; exact hfl) (toRaw_wf ps hwf) fi k (le_refl fi)).1
          (by rw [toRaw_length]; omega)
        rw [Nat.sub_self, rawPos_zero] at hes
        rw [hes]
      }

/-! ## Flipping one payload byte in an encoded log -/

theorem rawPos_set_le (rs : List (List Nat × List Nat)) (r' : List Nat × List Nat)
    (jf x : Nat) (hx : x ≤ jf) :
    rawPos (rs.set jf r') x = rawPos rs x := by
  unfold rawPos
  rw [List.set_take, List.set_eq_of_length_le
    (Nat.le_trans (List.length_take_le x rs) hx)]

theorem encodeLog_set_payload (fi : Nat) (ps : List (List Nat)) (jf i b : Nat)
    (hjf : jf < ps.length) (hi : i < ps[jf].length) :
    (encodeLog fi ps).set (entryPos ps jf + 8 + i) b
    = leBytes 8 fi
      ++ rawBytes ((toRaw ps).set jf (ps[jf].set i b, leBytes 4 (crc32 ps[jf]))) := by
  have hjr : jf < (toRaw ps).length := by rw [toRaw_length]; exact hjf
  have hget := toRaw_get ps jf hjf
  have hA : (leBytes 8 fi ++ rawBytes ((toRaw ps).take jf)).length = entryPos ps jf :=
    prefix_length_rawPos fi (toRaw ps) jf
  rw [encodeLog_raw, file_decomp fi (toRaw ps) jf hjr, hget]
  simp only []
  rw [List.set_append_right _ _ (by rw [hA]; omega)]
  rw [show entryPos ps jf + 8 + i - (leBytes 8 fi ++ rawBytes ((toRaw ps).take jf)).length
      = 8 + i by rw [hA]; omega]
  rw [List.set_append_right _ _ (by rw [leBytes_length]; omega)]
  rw [show 8 + i - (leBytes 8 ps[jf].length).length = i by rw [leBytes_length]; omega]
  rw [List.set_append_left _ _ (by exact hi)]
  rw [List.set_eq_take_cons_drop _ hjr]
  rw [rawBytes_append, rawBytes_cons, rawEntry]
  simp only [List.length_set]
  simp [List.append_assoc]

/-! ## Claim theorems -/

theorem setLen_length (l : List Nat) (n : Nat) : (setLen l n).length = n := by
  simp only [setLen, List.length_append, List.length_take, List.length_replicate]
  omega

/-- C1: Round-trip — for every sequence of byte-string payloads written in
order to a freshly opened empty log (followed by `flush`), closing the log,
reopening it with `open`, and iterating the full unbounded range yields
exactly the original payload sequence, in the same order, with every item
`Ok`. -/
theorem C1_round_trip (ps : List (List Nat))
    (hwf : ∀ p ∈ ps, PayloadWF p) (hn : ps.length < 2 ^ 64) :
    (let o := openLog []
     let w := writeAll o.1 o.2 ps
     let f := flushM w.1 w.2
     let r := openLog f.2
     r.1.len = ps.length
     ∧ iterM r.1 r.2 RBound.unbounded RBound.unbounded
       = Except.ok (ps.map Except.ok)) := by
  have ho : openLog [] = (⟨0, 0⟩, encodeLog 0 []) := by
    simp [openLog, encodeLog, toRaw, rawBytes]
  have hw := writeAll_wf ps [] ⟨0, 0⟩ 0 rfl rfl (by simpa using hn)
  simp only [List.length_nil, Nat.zero_add, List.nil_append] at hw
  have hr := openLog_encode 0 ps (by norm_num) hwf
  have hit := iterM_unbounded 0 ps ⟨0, ps.length⟩ rfl rfl (by simpa using hn) hwf
  simp only [flushM]
  rw [ho]
  simp only []
  rw [hw]
  simp only []
  rw [hr]
  simp only []
  exact ⟨trivial, hit⟩

theorem C1_round_trip_witness :
    (let o := openLog []
     let w := writeAll o.1 o.2 [[1, 2], [3]]
     let f := flushM w.1 w.2
     let r := openLog f.2
     r.1.len = [[1, 2], [3]].length
     ∧ iterM r.1 r.2 RBound.unbounded RBound.unbounded
       = Except.ok ([[1, 2], [3]].map Except.ok)) :=
  C1_round_trip [[1, 2], [3]] (by simp only [PayloadWF]; decide) (by norm_num)

/-- C2 (amended): for every file made of an 8-byte header, `n` complete
entry records and a trailing fragment too short to complete an `(n+1)`-th
entry — at most 8 trailing bytes in total, or fewer than `length + 4` bytes
remaining after the fragment's length field, PROVIDED `length + 4` does not
overflow a `u64` — `open` succeeds, reports `len = n` and physically
truncates the file to the end of the `n`-th complete record.  (The proviso
is forced by `C2_counterexample`: the code computes `length + 4` in wrapping
`u64` arithmetic, so a fragment whose length field is at least `2^64 - 4`
is miscounted as a complete entry.) -/
theorem C2_crash_recovery (fi : Nat) (rs : List (List Nat × List Nat))
    (junk : List Nat) (hwf : ∀ r ∈ rs, RawWF r) (hfi : fi < 2 ^ 64)
    (hjunk : junk.length ≤ 8 ∨ (8 < junk.length ∧
      junk.length - 8 < fromLEBytes (junk.take 8) + 4 ∧
      fromLEBytes (junk.take 8) + 4 < 2 ^ 64)) :
    openLog (leBytes 8 fi ++ (rawBytes rs ++ junk))
    = (⟨fi, rs.length⟩, leBytes 8 fi ++ rawBytes rs) := by
  apply openLog_wf fi rs junk hwf hfi
  rcases hjunk with h | ⟨h1, h2, h3⟩
  · exact Or.inl h
  · exact Or.inr ⟨h1, by rw [Nat.mod_eq_of_lt h3]; exact h2⟩

theorem C2_crash_recovery_witness :
    openLog (leBytes 8 0 ++ (rawBytes [([5], [1, 2, 3, 4])] ++ [9, 9, 9]))
    = (⟨0, 1⟩, leBytes 8 0 ++ rawBytes [([5], [1, 2, 3, 4])]) :=
  C2_crash_recovery 0 [([5], [1, 2, 3, 4])] [9, 9, 9]
    (by simp only [RawWF]; decide) (by norm_num) (Or.inl (by decide))

/-- C2 counterexample: the claim as frozen (with the mathematical reading of
"fewer than `length + 4` bytes remaining") fails.  The file below is an
8-byte zero header (`n = 0` complete records) followed by a 12-byte
fragment whose length field is `2^64 - 4`: only 4 bytes remain after the
length field, which is fewer than `length + 4`, so the claim demands
`len() = 0` and truncation to 8 bytes.  The code computes
`read_u64()? + 4`, which wraps to `0`, counts the fragment as a complete
entry, and reports `len() = 1` (truncating to 16 bytes). -/
theorem C2_counterexample :
    (8 : Nat) < (leBytes 8 (2 ^ 64 - 4) ++ [0, 0, 0, 0]).length
    ∧ (leBytes 8 (2 ^ 64 - 4) ++ [0, 0, 0, 0]).length - 8
      < fromLEBytes ((leBytes 8 (2 ^ 64 - 4) ++ [0, 0, 0, 0]).take 8) + 4
    ∧ (openLog (leBytes 8 0 ++ (leBytes 8 (2 ^ 64 - 4) ++ [0, 0, 0, 0]))).1.len ≠ 0 := by
  refine ⟨by decide, by decide, by decide⟩

/-- C3: on a failed append with a successful repair truncation, the original
`io::Error` is surfaced and `len` is unchanged — but the repair truncates to
`end_pos + 1` (one byte PAST the pre-write end of file), not to the
pre-write end-of-file offset the claim (and spec §4.2/§9) require:
`set_len(end_pos + 1)` in `LogFile::write`. -/
theorem C3_append_repair (st : LogState) (file p : List Nat) (o : WOracle)
    (k : Nat) (hk : o.failStep = some k) (ht : o.truncFails = false) :
    (writeM st file p o).res = .error o.writeErr
    ∧ (writeM st file p o).st = st
    ∧ (writeM st file p o).file.length = file.length + 1 := by
  obtain ⟨fs, pb, we, tf, te⟩ := o
  simp only [] at hk ht
  subst hk
  subst ht
  unfold writeM
  simp only [Bool.false_eq_true, if_false]
  exact ⟨trivial, trivial, setLen_length _ _⟩

theorem C3_append_repair_witness :
    (writeM ⟨0, 0⟩ (leBytes 8 0) [1] ⟨some 2, 0, 7, false, 3⟩).res = Except.error 7
    ∧ (writeM ⟨0, 0⟩ (leBytes 8 0) [1] ⟨some 2, 0, 7, false, 3⟩).st = ⟨0, 0⟩
    ∧ (writeM ⟨0, 0⟩ (leBytes 8 0) [1] ⟨some 2, 0, 7, false, 3⟩).file.length = 8 + 1 :=
  C3_append_repair ⟨0, 0⟩ (leBytes 8 0) [1] ⟨some 2, 0, 7, false, 3⟩ 2 rfl rfl

/-- C4: `read_to_next` fails with `BadChecksum` exactly when the stored
4-byte trailing checksum differs from the CRC-32 computed over the streamed
payload bytes; on success it returns the payload and `some` cursor at
`index + 1` when `index + 1 < first_index + len`, else `none`.
Consequently, flipping any single byte of a previously written payload makes
reading that entry fail with `BadChecksum`, while every earlier entry
remains readable with its original payload. -/
theorem C4_checksum (fi : Nat) (rs : List (List Nat × List Nat)) (st : LogState)
    (hst1 : st.first_index = fi) (hst2 : st.len = rs.length)
    (hfl : fi + rs.length < 2 ^ 64) (hwf : ∀ r ∈ rs, RawWF r)
    (j : Nat) (hj : j < rs.length)
    (fi2 : Nat) (ps : List (List Nat)) (st2 : LogState)
    (hq1 : st2.first_index = fi2) (hq2 : st2.len = ps.length)
    (hq3 : fi2 + ps.length < 2 ^ 64) (hq4 : ∀ p ∈ ps, PayloadWF p)
    (jf i b : Nat) (hjf : jf < ps.length) (hi : i < ps[jf].length)
    (hb : b < 256) (hbne : b ≠ ps[jf][i]) :
    ((readToNext st (leBytes 8 fi ++ rawBytes rs) (fi + j) (rawPos rs j)
        = .error .BadChecksum ↔ fromLEBytes rs[j].2 ≠ crc32 rs[j].1)
     ∧ (fromLEBytes rs[j].2 = crc32 rs[j].1 →
        readToNext st (leBytes 8 fi ++ rawBytes rs) (fi + j) (rawPos rs j)
        = .ok (rs[j].1, if fi + j + 1 < fi + rs.length
            then some (fi + j + 1, rawPos rs (j + 1)) else none)))
    ∧ readToNext st2 ((encodeLog fi2 ps).set (entryPos ps jf + 8 + i) b)
        (fi2 + jf) (entryPos ps jf) = .error .BadChecksum
    ∧ (∀ m, ∀ hm1 : m < jf, ∀ hm2 : m < ps.length,
        readToNext st2 ((encodeLog fi2 ps).set (entryPos ps jf + 8 + i) b)
          (fi2 + m) (entryPos ps m)
        = .ok (ps[m], some (fi2 + m + 1, entryPos ps (m + 1)))) := by
  have hread := readToNext_raw fi rs st hst1 hst2 hfl hwf (fi + j) j hj (by omega)
  have hfile := encodeLog_set_payload fi2 ps jf i b hjf hi
  set rs' := (toRaw ps).set jf (ps[jf].set i b, leBytes 4 (crc32 ps[jf])) with hrs'
  have hlen' : rs'.length = ps.length := by
    rw [hrs', List.length_set, toRaw_length]
  have hjr' : jf < rs'.length := by omega
  have hwf' : ∀ r ∈ rs', RawWF r := by
    intro r hr
    rcases List.mem_or_eq_of_mem_set hr with h | h
    · exact toRaw_wf ps hq4 r h
    · subst h
      exact ⟨by rw [List.length_set]; exact (hq4 ps[jf] (List.getElem_mem hjf)).1,
        leBytes_length 4 _⟩
  have hflip : crc32 (ps[jf].set i b) ≠ crc32 ps[jf] :=
    crc32_flip (hq4 ps[jf] (List.getElem_mem hjf)).2 hi hb (by simpa using hbne)
  refine ⟨⟨?_, ?_⟩, ?_, ?_⟩
  · constructor
    · intro herr
      intro hceq
      rw [hread, if_pos hceq] at herr
      exact absurd herr (by simp)
    · intro hne
      rw [hread, if_neg hne]
  · intro heq
    rw [hread, if_pos heq]
  · have hgetjf : rs'[jf] = (ps[jf].set i b, leBytes 4 (crc32 ps[jf])) :=
      List.getElem_set_self _
    have hread2 := readToNext_raw fi2 rs' st2 hq1 (by rw [hq2, hlen'])
      (by rw [hlen']; exact hq3) hwf' (fi2 + jf) jf hjr' (by omega)
    rw [hgetjf] at hread2
    simp only [] at hread2
    rw [chk_ok ps[jf] (hq4 ps[jf] (List.getElem_mem hjf))] at hread2
    rw [if_neg (fun h => hflip h.symm)] at hread2
    rw [hfile,
      show entryPos ps jf = rawPos rs' jf from
        (rawPos_set_le (toRaw ps) _ jf jf (le_refl jf)).symm]
    exact hread2
  · intro m hm1 hm2
    have hmn : m < ps.length := hm2
    have hmr' : m < rs'.length := by omega
    have hmt : m < (toRaw ps).length := by rw [toRaw_length]; exact hmn
    have hgetm : rs'[m] = (ps[m], leBytes 4 (crc32 ps[m])) := by
      have h1 : rs'[m] = (toRaw ps)[m] :=
        List.getElem_set_ne (by omega) _
      rw [h1]
      exact toRaw_get ps m hmn hmt
    have hread3 := readToNext_raw fi2 rs' st2 hq1 (by rw [hq2, hlen'])
      (by rw [hlen']; exact hq3) hwf' (fi2 + m) m hmr' (by omega)
    rw [hgetm] at hread3
    simp only [] at hread3
    rw [chk_ok ps[m] (hq4 ps[m] (List.getElem_mem hmn))] at hread3
    rw [if_pos rfl, hlen'] at hread3
    rw [if_pos (by omega)] at hread3
    rw [hfile,
      show entryPos ps m = rawPos rs' m from
        (rawPos_set_le (toRaw ps) _ jf m (by omega)).symm,
      show entryPos ps (m + 1) = rawPos rs' (m + 1) from
        (rawPos_set_le (toRaw ps) _ jf (m + 1) (by omega)).symm]
    exact hread3

theorem C4_checksum_witness :
    readToNext ⟨0, 2⟩ ((encodeLog 0 [[7], [9]]).set (entryPos [[7], [9]] 1 + 8 + 0) 3)
      (0 + 1) (entryPos [[7], [9]] 1) = .error .BadChecksum :=
  (C4_checksum 0 [([5], leBytes 4 (crc32 [5]))] ⟨0, 1⟩ rfl rfl (by norm_num)
    (by simp only [RawWF]; decide) 0 (by norm_num)
    0 [[7], [9]] ⟨0, 2⟩ rfl rfl (by norm_num) (by simp only [PayloadWF]; decide)
    1 0 3 (by norm_num) (by decide) (by decide) (by decide)).2.1

/-- C5: compaction preserves retained data — for every log with `len > 0`
and every `k` in `[first_index, last_index]`, `compact(k)` succeeds, after
which `first_index = k`, `len` is reduced by `k - old first_index`, the new
file is byte-for-byte the header `k` followed by the retained records
unchanged, iterating the full range yields the same payloads as iterating
the original log from `k` onward, and this persists across a close/reopen
cycle. -/
theorem C5_compaction (fi k : Nat) (ps : List (List Nat)) (st : LogState)
    (hst1 : st.first_index = fi) (hst2 : st.len = ps.length)
    (hfl : fi + ps.length < 2 ^ 64) (hwf : ∀ p ∈ ps, PayloadWF p)
    (hn : 1 ≤ ps.length) (hk1 : fi ≤ k) (hk2 : k ≤ fi + ps.length - 1) :
    compactM st (encodeLog fi ps) k
      = .ok (⟨k, ps.length - (k - fi)⟩, encodeLog k (ps.drop (k - fi)))
    ∧ iterM ⟨k, ps.length - (k - fi)⟩ (encodeLog k (ps.drop (k - fi)))
        RBound.unbounded RBound.unbounded
      = .ok ((ps.drop (k - fi)).map .ok)
    ∧ iterM st (encodeLog fi ps) (RBound.included k) RBound.unbounded
      = .ok ((ps.drop (k - fi)).map .ok)
    ∧ openLog (encodeLog k (ps.drop (k - fi)))
      = (⟨k, ps.length - (k - fi)⟩, encodeLog k (ps.drop (k - fi))) := by
  have hn0 : ¬st.len = 0 := by omega
  have hdwf : ∀ p ∈ ps.drop (k - fi), PayloadWF p :=
    fun p hp => hwf p (List.mem_of_mem_drop hp)
  have hdlen : (ps.drop (k - fi)).length = ps.length - (k - fi) := by
    rw [List.length_drop]
  have hdfl : k + (ps.drop (k - fi)).length < 2 ^ 64 := by
    rw [hdlen]
    omega
  refine ⟨?_, ?_, ?_, ?_⟩
  · exact compactM_ok fi k ps st hst1 hst2 hfl hwf hn0 hk1 (by omega)
  · exact iterM_unbounded k (ps.drop (k - fi)) ⟨k, ps.length - (k - fi)⟩ rfl
      (by simp only [] ; rw [hdlen]) hdfl hdwf
  · exact iterM_from fi k ps st hst1 hst2 hfl hwf hk1 hk2 hn
  · have := openLog_encode k (ps.drop (k - fi)) (by omega) hdwf
    rw [hdlen] at this
    exact this

theorem C5_compaction_witness :
    compactM ⟨0, 3⟩ (encodeLog 0 [[1], [2], [3]]) 1
      = .ok (⟨1, 3 - (1 - 0)⟩, encodeLog 1 ([[1], [2], [3]].drop (1 - 0)))
    ∧ iterM ⟨1, 3 - (1 - 0)⟩ (encodeLog 1 ([[1], [2], [3]].drop (1 - 0)))
        RBound.unbounded RBound.unbounded
      = .ok (([[1], [2], [3]].drop (1 - 0)).map .ok)
    ∧ iterM ⟨0, 3⟩ (encodeLog 0 [[1], [2], [3]]) (RBound.included 1) RBound.unbounded
      = .ok (([[1], [2], [3]].drop (1 - 0)).map .ok)
    ∧ openLog (encodeLog 1 ([[1], [2], [3]].drop (1 - 0)))
      = (⟨1, 3 - (1 - 0)⟩, encodeLog 1 ([[1], [2], [3]].drop (1 - 0))) :=
  C5_compaction 0 1 [[1], [2], [3]] ⟨0, 3⟩ rfl rfl (by norm_num)
    (by simp only [PayloadWF]; decide) (by norm_num) (by norm_num) (by norm_num)

/-- C6 (amended): on a well-formed log, `compact(k)` fails with
`OutOfBounds` exactly when the log is EMPTY (for every `k`, including
`k = first_index`) or `k` lies outside `[first_index, first_index + len]`;
on a nonempty log `k = first_index + len` is allowed and yields an empty
resulting log.  (The frozen claim's "including on an empty log" is refuted
by `C6_counterexample`: `compact` starts with `first_entry()`, which returns
`OutOfBounds` whenever `len == 0`.) -/
theorem C6_compact_bounds (fi k : Nat) (ps : List (List Nat)) (st : LogState)
    (hst1 : st.first_index = fi) (hst2 : st.len = ps.length)
    (hfl : fi + ps.length < 2 ^ 64) (hwf : ∀ p ∈ ps, PayloadWF p) :
    (compactM st (encodeLog fi ps) k = .error .OutOfBounds
      ↔ (st.len = 0 ∨ k < fi ∨ k > fi + ps.length))
    ∧ (1 ≤ ps.length → k = fi + ps.length →
        compactM st (encodeLog fi ps) k = .ok (⟨k, 0⟩, encodeLog k [])) := by
  constructor
  · exact compactM_err fi k ps st hst1 hst2 hfl hwf
  · intro hn hk
    have hn0 : ¬st.len = 0 := by omega
    have h := compactM_ok fi k ps st hst1 hst2 hfl hwf hn0 (by omega) (by omega)
    rw [h, List.drop_eq_nil_of_le (by omega),
      show ps.length - (k - fi) = 0 by omega]

theorem C6_compact_bounds_witness :
    (compactM ⟨0, 1⟩ (encodeLog 0 [[1]]) 3 = .error .OutOfBounds
      ↔ ((⟨0, 1⟩ : LogState).len = 0 ∨ 3 < 0 ∨ 3 > 0 + 1))
    ∧ (1 ≤ 1 → 3 = 0 + 1 →
        compactM ⟨0, 1⟩ (encodeLog 0 [[1]]) 3 = .ok (⟨3, 0⟩, encodeLog 3 [])) :=
  C6_compact_bounds 0 3 [[1]] ⟨0, 1⟩ rfl rfl (by norm_num)
    (by simp only [PayloadWF]; decide)

/-- C6 counterexample: on an empty log (`first_index = 0`, `len = 0`, file
= 8-byte zero header), the claim says `compact(0)` — `new_first_index`
equal to `first_index + len` — succeeds and yields an empty log, but the
code returns `OutOfBounds` (`compact` calls `seek`, which calls
`first_entry`, which rejects every empty log). -/
theorem C6_counterexample :
    compactM ⟨0, 0⟩ (leBytes 8 0) 0 = Except.error LogError.OutOfBounds := rfl

/-- C7: forward-only seek — for every cursor at index `i` of a well-formed
log, `seek(to)` fails with `OutOfBounds` exactly when `to < i` or
`to > first_index + len`; otherwise it returns a cursor positioned at `to`
(at the byte offset of that entry).  `first_index + len` is reachable only
as the one-past-last sentinel: reading at it fails (with an I/O error, the
file having ended), so it is not a readable position. -/
theorem C7_forward_seek (fi : Nat) (rs : List (List Nat × List Nat)) (st : LogState)
    (hst1 : st.first_index = fi) (hst2 : st.len = rs.length)
    (hfl : fi + rs.length < 2 ^ 64) (hwf : ∀ r ∈ rs, RawWF r)
    (i toIdx : Nat) (hi1 : fi ≤ i) (hi2 : i ≤ fi + rs.length) :
    (entrySeek st (leBytes 8 fi ++ rawBytes rs) i (rawPos rs (i - fi)) toIdx
        = .error .OutOfBounds ↔ (toIdx < i ∨ toIdx > fi + rs.length))
    ∧ (i ≤ toIdx → toIdx ≤ fi + rs.length →
        entrySeek st (leBytes 8 fi ++ rawBytes rs) i (rawPos rs (i - fi)) toIdx
        = .ok (toIdx, rawPos rs (toIdx - fi)))
    ∧ readToNext st (leBytes 8 fi ++ rawBytes rs) (fi + rs.length)
        (rawPos rs rs.length) = .error (.IoError 0) := by
  have hes := entrySeek_raw fi rs st hst1 hst2 hfl hwf i toIdx hi1
  refine ⟨⟨?_, hes.1⟩, hes.2, ?_⟩
  · intro herr
    by_contra hno
    push_neg at hno
    rw [hes.2 (by omega) (by omega)] at herr
    exact absurd herr (by simp)
  · have hlen := file_length_rawPos fi rs
    unfold readToNext readU64At
    rw [if_neg (by omega)]

theorem C7_forward_seek_witness :
    (entrySeek ⟨0, 2⟩ (leBytes 8 0 ++ rawBytes [([1], [0, 0, 0, 0]), ([2], [0, 0, 0, 0])])
        1 (rawPos [([1], [0, 0, 0, 0]), ([2], [0, 0, 0, 0])] (1 - 0)) 0
        = .error .OutOfBounds ↔ ((0 : Nat) < 1 ∨ (0 : Nat) > 0 + 2))
    ∧ ((1 : Nat) ≤ 2 → (2 : Nat) ≤ 0 + 2 →
        entrySeek ⟨0, 2⟩ (leBytes 8 0 ++ rawBytes [([1], [0, 0, 0, 0]), ([2], [0, 0, 0, 0])])
          1 (rawPos [([1], [0, 0, 0, 0]), ([2], [0, 0, 0, 0])] (1 - 0)) 2
        = .ok (2, rawPos [([1], [0, 0, 0, 0]), ([2], [0, 0, 0, 0])] (2 - 0)))
    ∧ readToNext ⟨0, 2⟩ (leBytes 8 0 ++ rawBytes [([1], [0, 0, 0, 0]), ([2], [0, 0, 0, 0])])
        (0 + 2) (rawPos [([1], [0, 0, 0, 0]), ([2], [0, 0, 0, 0])] 2)
        = .error (.IoError 0) :=
  ⟨(C7_forward_seek 0 [([1], [0, 0, 0, 0]), ([2], [0, 0, 0, 0])] ⟨0, 2⟩ rfl rfl
      (by norm_num) (by simp only [RawWF]; decide) 1 0 (by norm_num) (by norm_num)).1,
   (C7_forward_seek 0 [([1], [0, 0, 0, 0]), ([2], [0, 0, 0, 0])] ⟨0, 2⟩ rfl rfl
      (by norm_num) (by simp only [RawWF]; decide) 1 2 (by norm_num) (by norm_num)).2⟩

/-- C8 (amended): on an EMPTY log, `iter` succeeds with zero items for every
range, not only for the unbounded-both-ends query; on a nonempty log,
`iter` fails with `OutOfBounds` whenever the requested end bound is not
strictly within the populated range (an included end `x` must satisfy
`x < last_index`, an excluded end `x` must satisfy `x - 1 < last_index` in
wrapping `u64` arithmetic). -/
theorem C8_iter_bounds :
    (∀ (st : LogState) (file : List Nat) (sb eb : RBound), st.len = 0 →
      iterM st file sb eb = .ok [])
    ∧ (∀ (st : LogState) (file : List Nat) (sb : RBound) (x : Nat), st.len ≠ 0 →
      lastIndexW st ≤ x → iterM st file sb (.included x) = .error .OutOfBounds)
    ∧ (∀ (st : LogState) (file : List Nat) (sb : RBound) (x : Nat), st.len ≠ 0 →
      lastIndexW st ≤ wsub1 x → iterM st file sb (.excluded x) = .error .OutOfBounds) := by
  refine ⟨?_, ?_, ?_⟩
  · intro st file sb eb h
    unfold iterM
    rw [if_pos h]
  · intro st file sb x hn hle
    apply iterM_err_end st file sb _ hn
    show (if lastIndexW st > x then (Except.ok x : Except LogError Nat)
        else Except.error LogError.OutOfBounds) = Except.error LogError.OutOfBounds
    rw [if_neg (by omega)]
  · intro st file sb x hn hle
    apply iterM_err_end st file sb _ hn
    show (if lastIndexW st > wsub1 x then (Except.ok (wsub1 x) : Except LogError Nat)
        else Except.error LogError.OutOfBounds) = Except.error LogError.OutOfBounds
    rw [if_neg (by omega)]

theorem C8_iter_bounds_witness :
    iterM ⟨0, 0⟩ (leBytes 8 0) RBound.unbounded (RBound.included 3) = .ok []
    ∧ iterM ⟨0, 1⟩ (encodeLog 0 [[5]]) RBound.unbounded (RBound.included 0)
      = .error .OutOfBounds :=
  ⟨C8_iter_bounds.1 ⟨0, 0⟩ (leBytes 8 0) RBound.unbounded (RBound.included 3) rfl,
   C8_iter_bounds.2.1 ⟨0, 1⟩ (encodeLog 0 [[5]]) RBound.unbounded 0 (by decide)
     (by decide)⟩

/-- C8 counterexample: the frozen claim allows only the unbounded-both-ends
query to succeed on an empty log, so an empty log queried with the bounded
range `5..10` (end bound `Excluded 10`, not strictly within the empty
populated range) should fail with `OutOfBounds` — but `LogFile::iter`
returns `Ok` with an empty iterator for EVERY range whenever `len == 0`. -/
theorem C8_counterexample :
    iterM ⟨0, 0⟩ (leBytes 8 0) (RBound.included 5) (RBound.excluded 10)
    = Except.ok [] := rfl

/-- C9 (amended): when a two-phase append fails and the best-effort repair
truncation also fails, the caller receives the truncation error ALONE — the
`?` on `set_len(end_pos + 1)?` discards the original write error — though a
failure is still surfaced (the call never reports success). -/
theorem C9_trunc_error (st : LogState) (file p : List Nat) (o : WOracle)
    (k : Nat) (hk : o.failStep = some k) (ht : o.truncFails = true) :
    (writeM st file p o).res = .error o.truncErr
    ∧ ∀ u : Unit, (writeM st file p o).res ≠ .ok u := by
  obtain ⟨fs, pb, we, tf, te⟩ := o
  simp only [] at hk ht
  subst hk
  subst ht
  unfold writeM
  simp only [eq_self_iff_true, if_true]
  exact ⟨trivial, fun u h => Except.noConfusion h⟩

theorem C9_trunc_error_witness :
    (writeM ⟨0, 0⟩ (leBytes 8 0) [1] ⟨some 2, 0, 7, true, 3⟩).res = Except.error 3
    ∧ ∀ u : Unit,
      (writeM ⟨0, 0⟩ (leBytes 8 0) [1] ⟨some 2, 0, 7, true, 3⟩).res ≠ .ok u :=
  C9_trunc_error ⟨0, 0⟩ (leBytes 8 0) [1] ⟨some 2, 0, 7, true, 3⟩ 2 rfl rfl

/-- C9 counterexample: a write whose first flush fails with `io::Error`
identity 7, followed by a failing repair truncation with identity 3: the
caller receives error 3 — the original write error 7 is silently replaced
by the secondary truncation error alone, contradicting the frozen claim. -/
theorem C9_counterexample :
    (writeM ⟨0, 0⟩ (leBytes 8 0) [1] ⟨some 2, 0, 7, true, 3⟩).res = Except.error 3
    ∧ (writeM ⟨0, 0⟩ (leBytes 8 0) [1] ⟨some 2, 0, 7, true, 3⟩).res
      ≠ Except.error 7 := by
  refine ⟨rfl, ?_⟩
  intro h
  have h2 : (Except.error 3 : Except Nat Unit) = Except.error 7 := h
  injection h2 with h3
  omega

/-- C10: on an empty log (`len == 0`), `last_index()` computes
`first_index + len - 1` whose `u64` subtraction underflows; under wrapping
(mod `2^64`) arithmetic it returns `first_index - 1 (mod 2^64)` — i.e.
`2^64 - 1` when `first_index == 0` — which is never a valid entry index,
the set of valid indices being empty. -/
theorem C10_last_index_empty (st : LogState) (h0 : st.len = 0)
    (hfi : st.first_index < 2 ^ 64) :
    lastIndexW st = (st.first_index + (2 ^ 64 - 1)) % 2 ^ 64
    ∧ (st.first_index = 0 → lastIndexW st = 2 ^ 64 - 1)
    ∧ (1 ≤ st.first_index → lastIndexW st = st.first_index - 1)
    ∧ (∀ j, ¬validIndex st j) := by
  have hbase : lastIndexW st = (st.first_index + (2 ^ 64 - 1)) % 2 ^ 64 := by
    unfold lastIndexW
    rw [h0, Nat.add_zero, Nat.mod_eq_of_lt hfi]
  refine ⟨hbase, ?_, ?_, ?_⟩
  · intro h
    rw [hbase, h, Nat.zero_add]
    exact Nat.mod_eq_of_lt (by omega)
  · intro h
    rw [hbase,
      show st.first_index + (2 ^ 64 - 1) = (st.first_index - 1) + 2 ^ 64 by omega,
      Nat.add_mod_right]
    exact Nat.mod_eq_of_lt (by omega)
  · intro j hj
    unfold validIndex at hj
    omega

theorem C10_last_index_empty_witness :
    lastIndexW ⟨5, 0⟩ = (5 + (2 ^ 64 - 1)) % 2 ^ 64
    ∧ ((5 : Nat) = 0 → lastIndexW ⟨5, 0⟩ = 2 ^ 64 - 1)
    ∧ ((1 : Nat) ≤ 5 → lastIndexW ⟨5, 0⟩ = 5 - 1)
    ∧ (∀ j, ¬validIndex ⟨5, 0⟩ j) :=
  C10_last_index_empty ⟨5, 0⟩ rfl (by norm_num)
